import Mathlib

set_option linter.deprecated false

/-!
Verification of the scheduling/classification engine of `app.py`
(BTZ_SCHEDULE).

The development shallowly embeds the schedule-relevant functions of the
source file:

* `parse_duration_hms` (app.py lines 69-84): embedded at the level of the
  integer component list obtained after `s.split(":")` and `int(p)`; the
  result `timedelta` is represented by its total number of seconds.
* `duration_to_hms` (app.py lines 86-90): produces the `[h, m, s]`
  components of the rendered `HH:MM:SS` string (the `%02d` zero padding
  does not change the integer value a later `int()` recovers).
* `_safe_int` / `normalize_tasks` (app.py lines 138-181): the pandas
  DataFrame is embedded as a list of records plus column-presence flags;
  a `DurationSec` cell is `na` (NaN), an integer, or unconvertible; the
  `pd.to_datetime(..., errors="coerce")` parses of `Date + " " + Start`
  and `Date + " " + End` are embedded as `Option Int` instants (seconds),
  `none` standing for `NaT`.
* `compute_schedule` (app.py lines 183-210): the coerce-parses of lines
  189-190 are again `Option` fields; `dropna` is a `filterMap`;
  `sort_values(["Date", "Start_dt"])` is a sort by the lexicographic key;
  the `prev_end_by_day` dict is a function `Nat → Option Int` threaded
  through the fold; `GAP = timedelta(minutes=1)` is 60 seconds.
* `classify_rows` (app.py lines 99-108): per-row tentative status followed
  by the promotion of the first `Upcoming` row to `Next` (the source
  collects all `Upcoming` indices and overwrites the first one, which is
  the same operation).
* the progress-bar percentage (app.py lines 347-351): embedded over `ℚ`;
  the claim is about the clamping formula and the zero-denominator guard,
  not about binary floating-point rounding.

Dates are represented by `Nat` codes (any order-embedding of calendar
dates), instants and durations by `Int` seconds.
-/

/-- Status values of `classify_rows` (app.py lines 22-25). -/
inductive Status where
  | done
  | running
  | next
  | upcoming
deriving DecidableEq, Repr

/-- GAP between chained activities, in seconds (app.py line 20:
`GAP = timedelta(minutes=1)`). -/
def GAP : Int := 60

/-- Embedding of `parse_duration_hms` (app.py lines 69-84) applied to the
integer components of the input string (after `split(":")` and `int(p)`).
Returns the total seconds of the resulting `timedelta`, or `none`. -/
def parse_duration_hms (parts : List Int) : Option Int :=
  match parts with
  | [m, s] => if m < 0 ∨ ¬(0 ≤ s ∧ s < 60) then none else some (60 * m + s)
  | [h, m, s] =>
      if h < 0 ∨ m < 0 ∨ ¬(0 ≤ s ∧ s < 60) then none
      else some (3600 * h + 60 * m + s)
  | _ => none

/-- Embedding of `duration_to_hms` (app.py lines 86-90): the `[h, m, s]`
components of the rendered `HH:MM:SS` string for a duration of `td`
seconds (`divmod` on the clamped total). -/
def duration_to_hms (td : Int) : List Int :=
  let total := max 0 td
  [total / 3600, (total % 3600) / 60, (total % 3600) % 60]

/-- Embedding of the progress-bar percentage (app.py lines 347-351):
`pct = max(0.0, min(1.0, elapsed / total_secs)) if total_secs > 0 else 0.0`
with `total_secs = End - Start` and `elapsed = now - Start`, over `ℚ`. -/
def progress_pct (start stop now : ℚ) : ℚ :=
  let total := stop - start
  let elapsed := now - start
  if total > 0 then max 0 (min 1 (elapsed / total)) else 0

/-- A scheduled activity row: the columns of the DataFrame produced by
`compute_schedule` (app.py line 210), with instants in seconds. -/
structure SchedRow where
  Date : Nat
  Start : Int
  End : Int
  DurationSec : Int
  Activity : String
deriving DecidableEq, Repr

/-- Tentative status of one row (`_stat`, app.py lines 100-103). -/
def stat_row (now : Int) (r : SchedRow) : Status :=
  if r.End ≤ now then Status.done
  else if r.Start ≤ now ∧ now < r.End then Status.running
  else Status.upcoming

/-- Promotion step of `classify_rows` (app.py lines 105-107): the source
collects the indices of all `Upcoming` rows and overwrites the first one
with `Next`; this recursion rewrites exactly that first `Upcoming` row. -/
def promoteFirst : List (SchedRow × Status) → List (SchedRow × Status)
  | [] => []
  | p :: rest =>
      if p.2 = Status.upcoming then (p.1, Status.next) :: rest
      else p :: promoteFirst rest

/-- Embedding of `classify_rows` (app.py lines 99-108): tentative statuses
row by row, then the first `Upcoming` row becomes `Next`. -/
def classify_rows (rows : List SchedRow) (now : Int) : List (SchedRow × Status) :=
  promoteFirst (rows.map (fun r => (r, stat_row now r)))

/-- Pairwise non-overlap of the half-open activity intervals
`[Start, End)` of a schedule. -/
def Nonoverlap (rows : List SchedRow) : Prop :=
  rows.Pairwise (fun a b => a.End ≤ b.Start ∨ b.End ≤ a.Start)

instance (rows : List SchedRow) : Decidable (Nonoverlap rows) := by
  unfold Nonoverlap; infer_instance

/-- A `DurationSec` cell of the raw DataFrame: `NaN`, an integer value, or
a value `int()` cannot convert (both of the latter matter to `_safe_int`,
only `na` matters to `isna`). -/
inductive Cell where
  | na
  | intVal (n : Int)
  | bad
deriving DecidableEq, BEq, Repr

/-- Embedding of `_safe_int` (app.py lines 138-143) with the default 0:
`NaN` and unconvertible values give 0, integers give themselves. -/
def safe_int : Cell → Int
  | Cell.na => 0
  | Cell.intVal n => n
  | Cell.bad => 0

/-- One raw record as seen by `normalize_tasks` (app.py lines 145-181).
`dur` is the `DurationSec` cell (meaningful when that column exists);
`startParse` and `endParse` are the `pd.to_datetime(Date + " " + Start)`
and `pd.to_datetime(Date + " " + End)` results under `errors="coerce"`,
as instants in seconds, `none` standing for `NaT` (the `End` parse is
meaningful when the `End` column exists). Missing `Date`, `Start` or
`Activity` columns are filled with `""` by the source (lines 156-158), so
the string fields are always present here. -/
structure RawRec where
  Date : String
  Start : String
  Activity : String
  dur : Cell
  startParse : Option Int
  endParse : Option Int
deriving DecidableEq, Repr

/-- The raw DataFrame handed to `normalize_tasks`: its records plus the
presence flags of the `DurationSec` and `End` columns. -/
structure RawFrame where
  recs : List RawRec
  hasDur : Bool
  hasEnd : Bool

/-- A normalized record: the `["Date", "Start", "DurationSec", "Activity"]`
columns returned by `normalize_tasks` (app.py line 181). -/
structure NormRec where
  Date : String
  Start : String
  DurationSec : Int
  Activity : String
deriving DecidableEq, Repr

/-- Embedding of `normalize_tasks` (app.py lines 145-181). When the
`DurationSec` column is absent or all-NaN, the duration is derived from
`End`: `(end_dt - start_dt).total_seconds().fillna(0).astype(int).clip(lower=0)`,
so a failed parse gives 0 and a successful one gives `max 0 (e - s)`;
without an `End` column it is 0. Otherwise each cell goes through
`_safe_int`. -/
def normalize_tasks (f : RawFrame) : List NormRec :=
  if f.recs.isEmpty then []
  else if !f.hasDur || f.recs.all (fun r => r.dur == Cell.na) then
    if f.hasEnd then
      f.recs.map (fun r =>
        { Date := r.Date, Start := r.Start,
          DurationSec :=
            match r.startParse, r.endParse with
            | some s, some e => max 0 (e - s)
            | _, _ => 0,
          Activity := r.Activity })
    else
      f.recs.map (fun r =>
        { Date := r.Date, Start := r.Start, DurationSec := 0,
          Activity := r.Activity })
  else
    f.recs.map (fun r =>
      { Date := r.Date, Start := r.Start, DurationSec := safe_int r.dur,
        Activity := r.Activity })

/-- One row of the `normalize_tasks` output as seen by `compute_schedule`
(app.py lines 183-210), with the coerce-parses of lines 189-190 embedded:
`Date` is the parsed calendar date (a `Nat` code, `none` for `NaT`) and
`Start_dt` the tz-localized `Date + " " + Start` instant in seconds
(`none` for `NaT`). -/
structure RawTask where
  Date : Option Nat
  Start_dt : Option Int
  DurationSec : Int
  Activity : String
deriving DecidableEq, Repr

/-- A parsed row surviving `dropna(subset=["Date", "Start_dt"])`
(app.py line 193). -/
structure PRow where
  Date : Nat
  Start : Int
  DurationSec : Int
  Activity : String
deriving DecidableEq, Repr

/-- The `dropna(subset=["Date", "Start_dt"])` step (app.py line 193):
rows whose `Date` or `Start_dt` failed to parse are dropped. -/
def parseRows (rows : List RawTask) : List PRow :=
  rows.filterMap (fun r =>
    match r.Date, r.Start_dt with
    | some d, some s =>
        some { Date := d, Start := s, DurationSec := r.DurationSec,
               Activity := r.Activity }
    | _, _ => none)

/-- Sort key of `sort_values(["Date", "Start_dt"])` (app.py line 193):
lexicographic on date then nominal start. -/
def rowLe (a b : PRow) : Prop :=
  a.Date < b.Date ∨ (a.Date = b.Date ∧ a.Start ≤ b.Start)

instance : DecidableRel rowLe := fun a b => by
  unfold rowLe; infer_instance

instance : IsTotal PRow rowLe :=
  ⟨fun a b => by unfold rowLe; omega⟩

instance : IsTrans PRow rowLe :=
  ⟨fun a b c hab hbc => by unfold rowLe at hab hbc ⊢; omega⟩

/-- The `sort_values(["Date", "Start_dt"])` step (app.py line 193). -/
def sortRows (l : List PRow) : List PRow :=
  List.insertionSort rowLe l

/-- The chaining loop of `compute_schedule` (app.py lines 196-206): `f`
is the `prev_end_by_day` dict; a row whose date already has an entry
starts `GAP` after that stored end, otherwise at its nominal start; the
end is start plus duration, and it becomes the date's stored end. -/
def chainAux (f : Nat → Option Int) : List PRow → List SchedRow
  | [] => []
  | r :: rest =>
      let st : Int :=
        match f r.Date with
        | some e => e + GAP
        | none => r.Start
      let en : Int := st + r.DurationSec
      { Date := r.Date, Start := st, End := en,
        DurationSec := r.DurationSec, Activity := r.Activity } ::
        chainAux (fun d => if d = r.Date then some en else f d) rest

/-- Embedding of `compute_schedule` (app.py lines 183-210): drop the
unparseable rows, sort by `(Date, Start_dt)`, then chain per day starting
from an empty `prev_end_by_day` dict. -/
def compute_schedule (rows : List RawTask) : List SchedRow :=
  chainAux (fun _ => none) (sortRows (parseRows rows))

/-- C6 counterexample: the claim requires the three-part form to reject a
minutes component of 60 or more, but `parse_duration_hms` only checks
`m < 0` in the three-part branch, so `0:99:0` is accepted as 99 minutes
(5940 seconds) instead of returning the error value. -/
theorem parse_duration_three_part_minutes_cex :
    parse_duration_hms [0, 99, 0] ≠ none ∧
    parse_duration_hms [0, 99, 0] = some 5940 := by
  constructor
  · decide
  · decide

/-- C6 amended: in two-part `MM:SS` form an input is accepted exactly when
the minutes component is non-negative and the seconds component is in
`[0, 60)`; in three-part `HH:MM:SS` form exactly when all three
components are non-negative and the seconds component is in `[0, 60)` —
the minutes component may exceed 59 in the three-part form as well. -/
theorem parse_duration_ranges_amended (h m s : Int) :
    parse_duration_hms [m, s] =
      (if 0 ≤ m ∧ 0 ≤ s ∧ s < 60 then some (60 * m + s) else none) ∧
    parse_duration_hms [h, m, s] =
      (if 0 ≤ h ∧ 0 ≤ m ∧ 0 ≤ s ∧ s < 60 then some (3600 * h + 60 * m + s)
       else none) := by
  constructor
  · by_cases hc : 0 ≤ m ∧ 0 ≤ s ∧ s < 60
    · rw [if_pos hc]
      simp only [parse_duration_hms]
      rw [if_neg (by omega)]
    · rw [if_neg hc]
      simp only [parse_duration_hms]
      rw [if_pos (by omega)]
  · by_cases hc : 0 ≤ h ∧ 0 ≤ m ∧ 0 ≤ s ∧ s < 60
    · rw [if_pos hc]
      simp only [parse_duration_hms]
      rw [if_neg (by omega)]
    · rw [if_neg hc]
      simp only [parse_duration_hms]
      rw [if_pos (by omega)]

/-- C9: parsing is a left inverse of formatting — for every non-negative
whole-second duration, `parse_duration_hms` applied to the `HH:MM:SS`
components rendered by `duration_to_hms` returns the duration exactly. -/
theorem parse_duration_roundtrip (d : Int) (hd : 0 ≤ d) :
    parse_duration_hms (duration_to_hms d) = some d := by
  simp only [duration_to_hms, parse_duration_hms]
  rw [max_eq_right hd]
  rw [if_neg (by omega)]
  congr 1
  omega

/-- C9 witness at the concrete duration 3661 seconds (1:01:01). -/
theorem parse_duration_roundtrip_witness :
    parse_duration_hms (duration_to_hms 3661) = some 3661 :=
  parse_duration_roundtrip 3661 (by decide)

/-- C8: the progress fraction is clamped to `[0, 1]`; it equals
`clamp((now - start) / (end - start), 0, 1)` whenever `end - start` is
positive, and it is 0 whenever `end - start` is not positive (in
particular when `end = start`), so the division never runs with a zero or
negative denominator. -/
theorem progress_pct_clamped (start stop now : ℚ) :
    0 ≤ progress_pct start stop now ∧
    progress_pct start stop now ≤ 1 ∧
    (stop = start → progress_pct start stop now = 0) ∧
    (stop ≤ start → progress_pct start stop now = 0) ∧
    (start < stop →
      progress_pct start stop now =
        max 0 (min 1 ((now - start) / (stop - start)))) := by
  unfold progress_pct
  by_cases h : stop - start > 0
  · rw [if_pos h]
    refine ⟨le_max_left 0 _, ?_, ?_, ?_, fun _ => rfl⟩
    · exact max_le (by norm_num) (min_le_left 1 _)
    · intro he; exfalso; rw [he] at h; simp at h
    · intro he; exfalso; linarith
  · rw [if_neg h]
    refine ⟨le_refl 0, by norm_num, fun _ => rfl, fun _ => rfl, ?_⟩
    intro hlt; exfalso; exact h (by linarith)

/-- C8 witness: at `start 0`, `end 2`, `now 1` the fraction is the clamped
ratio `1/2`, and it is non-negative. -/
theorem progress_pct_clamped_witness :
    progress_pct 0 2 1 = max 0 (min 1 ((1 - 0) / (2 - 0))) ∧
    0 ≤ progress_pct 0 2 1 :=
  ⟨(progress_pct_clamped 0 2 1).2.2.2.2 (by norm_num),
   (progress_pct_clamped 0 2 1).1⟩

/-- A raw frame whose `DurationSec` column holds the integer -5. -/
def negDurFrame : RawFrame :=
  { recs := [{ Date := "2024-01-01", Start := "08:00:00", Activity := "A",
               dur := Cell.intVal (-5), startParse := none, endParse := none }],
    hasDur := true, hasEnd := false }

/-- C4 counterexample: a raw record whose `DurationSec` cell holds -5 is
normalized to `DurationSec = -5`, because `_safe_int` converts without
clamping, so the claimed invariant `durationSeconds >= 0` fails. -/
theorem normalize_tasks_negative_duration_cex :
    ∃ r ∈ normalize_tasks negDurFrame, r.DurationSec < 0 := by
  decide

/-- C4 amended: every duration the Normalizer derives from `End` (or
defaults when no duration source exists) is non-negative —
`end - start` is clamped to `max 0` and unparseable rows get 0 — but when
a `DurationSec` column with some non-NaN cell is present the stored value
is `_safe_int` of the cell, which keeps an explicitly negative integer
as-is; the invariant `durationSeconds >= 0` only holds for the derived
path. -/
theorem normalize_tasks_duration_nonneg_amended (f : RawFrame)
    (h : (!f.hasDur || f.recs.all (fun r => r.dur == Cell.na)) = true) :
    ∀ r ∈ normalize_tasks f, 0 ≤ r.DurationSec := by
  intro r hr
  unfold normalize_tasks at hr
  by_cases he : f.recs.isEmpty
  · rw [if_pos he] at hr
    simp at hr
  · rw [if_neg he, if_pos h] at hr
    by_cases hend : f.hasEnd
    · rw [if_pos hend] at hr
      rcases List.mem_map.mp hr with ⟨x, -, hx⟩
      subst hx
      cases x.startParse with
      | none => simp
      | some s =>
        cases x.endParse with
        | none => simp
        | some e => simp
    · rw [if_neg hend] at hr
      rcases List.mem_map.mp hr with ⟨x, -, hx⟩
      subst hx
      simp

/-- A raw frame with an `End` column, an all-NaN `DurationSec` column, and
one row whose end parse precedes its start parse. -/
def allNaFrame : RawFrame :=
  { recs := [{ Date := "2024-01-01", Start := "09:00:00", Activity := "A",
               dur := Cell.na, startParse := some 100, endParse := some 40 }],
    hasDur := true, hasEnd := true }

/-- C4 witness: on a frame whose `DurationSec` column is all-NaN the
derived duration of the record (here clamped from 40 - 100 to 0) is
non-negative. -/
theorem normalize_tasks_duration_nonneg_amended_witness :
    0 ≤ (⟨"2024-01-01", "09:00:00", 0, "A"⟩ : NormRec).DurationSec :=
  normalize_tasks_duration_nonneg_amended allNaFrame (by decide)
    ⟨"2024-01-01", "09:00:00", 0, "A"⟩ (by decide)

/-- A raw frame lacking both the `DurationSec` and the `End` column. -/
def noDurNoEndFrame : RawFrame :=
  { recs := [{ Date := "2024-01-01", Start := "08:00:00", Activity := "A",
               dur := Cell.na, startParse := some 28800, endParse := none }],
    hasDur := false, hasEnd := false }

/-- C5 counterexample: a raw record with neither an `End` column nor a
`DurationSec` column does not fail normalization — `normalize_tasks`
returns a normalized activity for it, with `DurationSec = 0`, instead of
any error value. -/
theorem normalize_tasks_missing_both_cex :
    normalize_tasks noDurNoEndFrame =
      [{ Date := "2024-01-01", Start := "08:00:00", DurationSec := 0,
         Activity := "A" }] := by
  decide

/-- C5 amended: when both the `End` and the `DurationSec` columns are
absent, normalization does not fail: it produces one normalized activity
per raw record, each with `durationSeconds = 0`. -/
theorem normalize_tasks_missing_both_amended (f : RawFrame)
    (hd : f.hasDur = false) (he : f.hasEnd = false) :
    (normalize_tasks f).length = f.recs.length ∧
    ∀ r ∈ normalize_tasks f, r.DurationSec = 0 := by
  unfold normalize_tasks
  rw [hd]
  by_cases hemp : f.recs.isEmpty
  · rw [if_pos hemp]
    constructor
    · rw [List.isEmpty_iff] at hemp
      simp [hemp]
    · intro r hr; simp at hr
  · rw [if_neg hemp]
    rw [if_pos (by simp)]
    rw [he]
    rw [if_neg (by simp)]
    constructor
    · exact List.length_map _ _
    · intro r hr
      rcases List.mem_map.mp hr with ⟨x, -, hx⟩
      subst hx
      rfl

/-- C5 witness: on the concrete frame lacking both columns the output has
as many records as the input and the produced record's duration is 0. -/
theorem normalize_tasks_missing_both_amended_witness :
    (normalize_tasks noDurNoEndFrame).length = noDurNoEndFrame.recs.length ∧
    (⟨"2024-01-01", "08:00:00", 0, "A"⟩ : NormRec).DurationSec = 0 :=
  ⟨(normalize_tasks_missing_both_amended noDurNoEndFrame rfl rfl).1,
   (normalize_tasks_missing_both_amended noDurNoEndFrame rfl rfl).2
     ⟨"2024-01-01", "08:00:00", 0, "A"⟩ (by decide)⟩

/-- Tentative status `done` happens exactly on `End ≤ now`. -/
lemma stat_row_done_iff (now : Int) (r : SchedRow) :
    stat_row now r = Status.done ↔ r.End ≤ now := by
  unfold stat_row
  split_ifs with h1 h2 <;> simp <;> omega

/-- Tentative status `running` happens exactly on `Start ≤ now < End`. -/
lemma stat_row_running_iff (now : Int) (r : SchedRow) :
    stat_row now r = Status.running ↔ r.Start ≤ now ∧ now < r.End := by
  unfold stat_row
  split_ifs with h1 h2 <;> simp <;> omega

/-- Tentative status `upcoming` happens exactly on `now < Start` and
`now < End`. -/
lemma stat_row_upcoming_iff (now : Int) (r : SchedRow) :
    stat_row now r = Status.upcoming ↔ now < r.Start ∧ now < r.End := by
  unfold stat_row
  split_ifs with h1 h2 <;> simp <;> omega

/-- Tentative statuses never include `next`. -/
lemma stat_row_ne_next (now : Int) (r : SchedRow) :
    stat_row now r ≠ Status.next := by
  unfold stat_row
  split_ifs <;> simp

/-- Index-wise description of `promoteFirst`: entry `i` is unchanged
unless it is `upcoming` and no earlier entry is, in which case it becomes
`next`. -/
lemma promoteFirst_get? (l : List (SchedRow × Status)) (i : Nat) :
    (promoteFirst l).get? i =
      (l.get? i).map (fun q =>
        if q.2 = Status.upcoming ∧ ∀ r ∈ l.take i, r.2 ≠ Status.upcoming
        then (q.1, Status.next) else q) := by
  induction l generalizing i with
  | nil => simp [promoteFirst]
  | cons p rest ih =>
    by_cases hp : p.2 = Status.upcoming
    · simp only [promoteFirst, if_pos hp]
      cases i with
      | zero =>
        simp only [List.get?_cons_zero, List.take_zero, Option.map_some']
        rw [if_pos ⟨hp, by simp⟩]
      | succ j =>
        simp only [List.get?_cons_succ, List.take_succ_cons]
        cases hq : rest.get? j with
        | none => simp
        | some q =>
          simp only [Option.map_some']
          rw [if_neg]
          rintro ⟨-, hall⟩
          exact hall p (List.mem_cons_self p _) hp
    · simp only [promoteFirst, if_neg hp]
      cases i with
      | zero =>
        simp only [List.get?_cons_zero, List.take_zero, Option.map_some']
        rw [if_neg (fun hc => hp hc.1)]
      | succ j =>
        simp only [List.get?_cons_succ, List.take_succ_cons]
        rw [ih j]
        cases hq : rest.get? j with
        | none => simp
        | some q =>
          simp only [Option.map_some', Option.some.injEq]
          by_cases hc : q.2 = Status.upcoming ∧
              ∀ r ∈ rest.take j, r.2 ≠ Status.upcoming
          · rw [if_pos hc, if_pos]
            refine ⟨hc.1, ?_⟩
            intro r hr
            rcases List.mem_cons.mp hr with h | h
            · rw [h]; exact hp
            · exact hc.2 r h
          · rw [if_neg hc, if_neg]
            rintro ⟨h1, hall⟩
            exact hc ⟨h1, fun r hr => hall r (List.mem_cons_of_mem p hr)⟩

/-- Index-wise description of `classify_rows`: row `i` keeps its row and
gets its tentative status, except that an `upcoming` row preceded by no
`upcoming` row becomes `next`. -/
lemma classify_rows_get? (rows : List SchedRow) (now : Int) (i : Nat) :
    (classify_rows rows now).get? i =
      (rows.get? i).map (fun a =>
        (a, if stat_row now a = Status.upcoming ∧
              ∀ b ∈ rows.take i, stat_row now b ≠ Status.upcoming
            then Status.next else stat_row now a)) := by
  unfold classify_rows
  rw [promoteFirst_get?]
  rw [List.get?_map]
  cases hq : rows.get? i with
  | none => simp
  | some a =>
    simp only [Option.map_some', Option.some.injEq]
    have htake : (rows.map (fun r => (r, stat_row now r))).take i =
        (rows.take i).map (fun r => (r, stat_row now r)) :=
      (List.map_take _ rows i).symm
    rw [htake]
    by_cases hc : stat_row now a = Status.upcoming ∧
        ∀ b ∈ rows.take i, stat_row now b ≠ Status.upcoming
    · have hcl : stat_row now a = Status.upcoming ∧
          ∀ r ∈ List.map (fun r => (r, stat_row now r)) (List.take i rows),
            r.2 ≠ Status.upcoming := by
        refine ⟨hc.1, ?_⟩
        intro r hr
        rcases List.mem_map.mp hr with ⟨b, hb, hrb⟩
        rw [← hrb]
        exact hc.2 b hb
      rw [if_pos hcl, if_pos hc]
    · have hcl : ¬(stat_row now a = Status.upcoming ∧
          ∀ r ∈ List.map (fun r => (r, stat_row now r)) (List.take i rows),
            r.2 ≠ Status.upcoming) := by
        rintro ⟨h1, hall⟩
        exact hc ⟨h1, fun b hb =>
          hall (b, stat_row now b) (List.mem_map.mpr ⟨b, hb, rfl⟩)⟩
      rw [if_neg hcl, if_neg hc]

/-- Full characterization of one classified entry: the row is preserved
and its status is `done` iff `End ≤ now`, `running` iff
`Start ≤ now < End`, `next` iff it is tentatively upcoming and no earlier
row is, `upcoming` iff it is tentatively upcoming and some earlier row
is. -/
lemma classify_rows_char (rows : List SchedRow) (now : Int) (i : Nat)
    (a : SchedRow) (st : Status)
    (h : (classify_rows rows now).get? i = some (a, st)) :
    rows.get? i = some a ∧
    (st = Status.done ↔ a.End ≤ now) ∧
    (st = Status.running ↔ a.Start ≤ now ∧ now < a.End) ∧
    (st = Status.next ↔ (now < a.Start ∧ now < a.End) ∧
      ∀ b ∈ rows.take i, ¬(now < b.Start ∧ now < b.End)) ∧
    (st = Status.upcoming ↔ (now < a.Start ∧ now < a.End) ∧
      ¬∀ b ∈ rows.take i, ¬(now < b.Start ∧ now < b.End)) := by
  rw [classify_rows_get? rows now i] at h
  cases hq : rows.get? i with
  | none => rw [hq] at h; simp at h
  | some x =>
    rw [hq] at h
    simp only [Option.map_some', Option.some.injEq, Prod.mk.injEq] at h
    obtain ⟨hax, hst⟩ := h
    subst hax
    refine ⟨rfl, ?_⟩
    have hearlier : (∀ b ∈ rows.take i, stat_row now b ≠ Status.upcoming) ↔
        (∀ b ∈ rows.take i, ¬(now < b.Start ∧ now < b.End)) := by
      constructor
      · intro hall b hb hcontra
        exact hall b hb ((stat_row_upcoming_iff now b).mpr hcontra)
      · intro hall b hb hcontra
        exact hall b hb ((stat_row_upcoming_iff now b).mp hcontra)
    by_cases hc : stat_row now x = Status.upcoming ∧
        ∀ b ∈ rows.take i, stat_row now b ≠ Status.upcoming
    · rw [if_pos hc] at hst
      subst hst
      have hup := (stat_row_upcoming_iff now x).mp hc.1
      refine ⟨?_, ?_, ?_, ?_⟩
      · constructor
        · intro hco; exact absurd hco (by decide)
        · intro hco; exact absurd hco (by omega)
      · constructor
        · intro hco; exact absurd hco (by decide)
        · rintro ⟨h1, -⟩; exact absurd h1 (by omega)
      · exact ⟨fun _ => ⟨hup, hearlier.mp hc.2⟩, fun _ => rfl⟩
      · constructor
        · intro hco; exact absurd hco (by decide)
        · rintro ⟨-, hnall⟩
          exact absurd (hearlier.mp hc.2) hnall
    · rw [if_neg hc] at hst
      subst hst
      refine ⟨stat_row_done_iff now x, stat_row_running_iff now x, ?_, ?_⟩
      · constructor
        · intro hco; exact absurd hco (stat_row_ne_next now x)
        · rintro ⟨hup, hall⟩
          exact absurd ⟨(stat_row_upcoming_iff now x).mpr hup,
            hearlier.mpr hall⟩ hc
      · constructor
        · intro hco
          have hup := (stat_row_upcoming_iff now x).mp hco
          refine ⟨hup, fun hall => hc ⟨hco, hearlier.mpr hall⟩⟩
        · rintro ⟨hup, -⟩
          exact (stat_row_upcoming_iff now x).mpr hup

/-- Two rows of a pairwise non-overlapping schedule at distinct indices
have disjoint half-open intervals. -/
lemma nonoverlap_get? (rows : List SchedRow) (hno : Nonoverlap rows)
    (i j : Nat) (a b : SchedRow) (hij : i ≠ j)
    (hi : rows.get? i = some a) (hj : rows.get? j = some b) :
    a.End ≤ b.Start ∨ b.End ≤ a.Start := by
  rw [List.get?_eq_some] at hi hj
  obtain ⟨hilen, hia⟩ := hi
  obtain ⟨hjlen, hjb⟩ := hj
  unfold Nonoverlap at hno
  rcases Nat.lt_or_ge i j with hlt | hge
  · have := List.pairwise_iff_get.mp hno ⟨i, hilen⟩ ⟨j, hjlen⟩ hlt
    rw [hia, hjb] at this
    exact this
  · have hlt : j < i := lt_of_le_of_ne hge (Ne.symm hij)
    have := List.pairwise_iff_get.mp hno ⟨j, hjlen⟩ ⟨i, hilen⟩ hlt
    rw [hia, hjb] at this
    omega

/-- An entry at an index below `j` belongs to the take-prefix of length
`j`. -/
lemma mem_take_of_get? (rows : List SchedRow) (i j : Nat) (a : SchedRow)
    (hij : i < j) (hi : rows.get? i = some a) : a ∈ rows.take j := by
  have h := List.get?_take hij (l := rows)
  rw [hi] at h
  exact List.get?_mem h

/-- C2: classification gives each activity status `Done` exactly when
`End ≤ now` and `Running` exactly when `Start ≤ now < End`; the remaining
(tentatively upcoming) activities, characterized by `now < Start` and
`now < End`, get `Next` exactly on the first such row in order and
`Upcoming` on all later ones. -/
theorem classify_rows_status_spec (rows : List SchedRow) (now : Int)
    (i : Nat) (a : SchedRow) (st : Status)
    (h : (classify_rows rows now).get? i = some (a, st)) :
    rows.get? i = some a ∧
    (st = Status.done ↔ a.End ≤ now) ∧
    (st = Status.running ↔ a.Start ≤ now ∧ now < a.End) ∧
    (st = Status.next ↔ (now < a.Start ∧ now < a.End) ∧
      ∀ b ∈ rows.take i, ¬(now < b.Start ∧ now < b.End)) ∧
    (st = Status.upcoming ↔ (now < a.Start ∧ now < a.End) ∧
      ¬∀ b ∈ rows.take i, ¬(now < b.Start ∧ now < b.End)) :=
  classify_rows_char rows now i a st h

/-- Demonstration schedule used by the classification witnesses: two
non-overlapping activities on one date. -/
def demoRows : List SchedRow :=
  [{ Date := 1, Start := 0, End := 10, DurationSec := 10, Activity := "A" },
   { Date := 1, Start := 20, End := 30, DurationSec := 10, Activity := "B" }]

/-- C2 witness: at `now = 5` the second demo activity is classified
`Next`; instantiating the theorem there recovers its row and the fact
that it is tentatively upcoming. -/
theorem classify_rows_status_spec_witness :
    demoRows.get? 1 =
      some { Date := 1, Start := 20, End := 30, DurationSec := 10,
             Activity := "B" } ∧
    ((5 : Int) < 20 ∧ (5 : Int) < 30) :=
  have h := classify_rows_status_spec demoRows 5 1
    { Date := 1, Start := 20, End := 30, DurationSec := 10, Activity := "B" }
    Status.next (by decide)
  ⟨h.1, (h.2.2.2.1.mp rfl).1⟩

/-- C3: on a pairwise non-overlapping schedule, at most one activity is
classified `Running`, at most one is classified `Next`, and no activity
is both (a `Running` index and a `Next` index are always distinct). -/
theorem classify_rows_at_most_one (rows : List SchedRow) (now : Int)
    (hno : Nonoverlap rows) :
    (∀ i j a b, (classify_rows rows now).get? i = some (a, Status.running) →
      (classify_rows rows now).get? j = some (b, Status.running) → i = j) ∧
    (∀ i j a b, (classify_rows rows now).get? i = some (a, Status.next) →
      (classify_rows rows now).get? j = some (b, Status.next) → i = j) ∧
    (∀ i j a b, (classify_rows rows now).get? i = some (a, Status.running) →
      (classify_rows rows now).get? j = some (b, Status.next) → i ≠ j) := by
  refine ⟨?_, ?_, ?_⟩
  · intro i j a b hi hj
    by_contra hij
    have ha := classify_rows_char rows now i a Status.running hi
    have hb := classify_rows_char rows now j b Status.running hj
    have hra := ha.2.2.1.mp rfl
    have hrb := hb.2.2.1.mp rfl
    have hdisj := nonoverlap_get? rows hno i j a b hij ha.1 hb.1
    omega
  · intro i j a b hi hj
    by_contra hij
    have ha := classify_rows_char rows now i a Status.next hi
    have hb := classify_rows_char rows now j b Status.next hj
    have hna := ha.2.2.2.1.mp rfl
    have hnb := hb.2.2.2.1.mp rfl
    rcases Nat.lt_or_ge i j with hlt | hge
    · exact hnb.2 a (mem_take_of_get? rows i j a hlt ha.1) hna.1
    · have hlt : j < i := lt_of_le_of_ne hge (Ne.symm hij)
      exact hna.2 b (mem_take_of_get? rows j i b hlt hb.1) hnb.1
  · intro i j a b hi hj heq
    subst heq
    rw [hi] at hj
    simp only [Option.some.injEq, Prod.mk.injEq] at hj
    exact absurd hj.2 (by decide)

/-- C3 witness: the demo schedule is non-overlapping, and at `now = 5`
the `Running` index 0 differs from the `Next` index 1. -/
theorem classify_rows_at_most_one_witness : (0 : Nat) ≠ 1 :=
  (classify_rows_at_most_one demoRows 5 (by decide)).2.2 0 1
    { Date := 1, Start := 0, End := 10, DurationSec := 10, Activity := "A" }
    { Date := 1, Start := 20, End := 30, DurationSec := 10, Activity := "B" }
    (by decide) (by decide)

/-- C7: a zero-duration activity (`Start = End`) is never classified
`Running`: once `now` reaches its start it is `Done`, and before that it
is `Upcoming` or `Next`. -/
theorem classify_zero_duration (rows : List SchedRow) (now : Int)
    (i : Nat) (a : SchedRow) (st : Status)
    (h : (classify_rows rows now).get? i = some (a, st))
    (hz : a.Start = a.End) :
    st ≠ Status.running ∧
    (a.Start ≤ now → st = Status.done) ∧
    (now < a.Start → st = Status.upcoming ∨ st = Status.next) := by
  have hc := classify_rows_char rows now i a st h
  refine ⟨?_, ?_, ?_⟩
  · intro hco
    have := hc.2.2.1.mp hco
    omega
  · intro hle
    exact hc.2.1.mpr (by omega)
  · intro hlt
    cases st with
    | done => exact absurd (hc.2.1.mp rfl) (by omega)
    | running => exact absurd (hc.2.2.1.mp rfl) (by omega)
    | next => exact Or.inr rfl
    | upcoming => exact Or.inl rfl

/-- Demonstration schedule with a single zero-duration activity. -/
def zeroRows : List SchedRow :=
  [{ Date := 1, Start := 50, End := 50, DurationSec := 0, Activity := "Z" }]

/-- C7 witness: at `now = 50` (the boundary instant) the zero-duration
activity is `Done`, not `Running`. -/
theorem classify_zero_duration_witness :
    Status.done ≠ Status.running ∧ Status.done = Status.done :=
  have h := classify_zero_duration zeroRows 50 0
    { Date := 1, Start := 50, End := 50, DurationSec := 0, Activity := "Z" }
    Status.done (by decide) rfl
  ⟨h.1, h.2.1 (by decide)⟩

/-- The chaining loop emits one scheduled row per input row. -/
lemma chainAux_length (f : Nat → Option Int) (l : List PRow) :
    (chainAux f l).length = l.length := by
  induction l generalizing f with
  | nil => rfl
  | cons r rest ih => simp [chainAux, ih]

/-- The chaining loop preserves each row's date and duration and always
sets `End = Start + DurationSec`. -/
lemma chainAux_fields (l : List PRow) :
    ∀ (f : Nat → Option Int) (i : Nat) (p : SchedRow) (q : PRow),
      (chainAux f l).get? i = some p → l.get? i = some q →
      p.Date = q.Date ∧ p.DurationSec = q.DurationSec ∧
      p.End = p.Start + p.DurationSec := by
  induction l with
  | nil =>
    intro f i p q hp hq
    simp at hq
  | cons r rest ih =>
    intro f i p q hp hq
    cases i with
    | zero =>
      simp only [chainAux, List.get?_cons_zero, Option.some.injEq] at hp hq
      subst hp
      subst hq
      exact ⟨rfl, rfl, rfl⟩
    | succ j =>
      simp only [chainAux, List.get?_cons_succ] at hp hq
      exact ih _ j p q hp hq

/-- Consecutive output rows of the chaining loop with equal dates obey
`next.Start = prev.End + GAP` (the `prev_end_by_day` entry written by the
previous row is read back by the next one). -/
lemma chainAux_gap (l : List PRow) :
    ∀ (f : Nat → Option Int) (i : Nat) (p q : SchedRow),
      (chainAux f l).get? i = some p →
      (chainAux f l).get? (i + 1) = some q →
      q.Date = p.Date → q.Start = p.End + GAP := by
  induction l with
  | nil =>
    intro f i p q hp hq hd
    simp [chainAux] at hp
  | cons r rest ih =>
    intro f i p q hp hq hd
    cases i with
    | zero =>
      cases rest with
      | nil => simp [chainAux] at hq
      | cons r2 rest2 =>
        simp only [chainAux, List.get?_cons_zero, List.get?_cons_succ,
          Option.some.injEq] at hp hq
        subst hp
        subst hq
        simp only at hd ⊢
        rw [if_pos hd]
    | succ j =>
      simp only [chainAux, List.get?_cons_succ] at hp hq
      exact ih _ j p q hp hq hd

/-- A consecutive output row of the chaining loop on a new date (with the
dates weakly sorted and the dict holding only dates no larger than every
remaining date) starts at its nominal start. -/
lemma chainAux_first (l : List PRow) :
    ∀ (f : Nat → Option Int),
      l.Pairwise (fun a b => a.Date ≤ b.Date) →
      (∀ x ∈ l, ∀ y ∈ l, f x.Date ≠ none → x.Date ≤ y.Date) →
      ∀ (i : Nat) (p q : SchedRow) (ql : PRow),
        (chainAux f l).get? i = some p →
        (chainAux f l).get? (i + 1) = some q →
        q.Date ≠ p.Date → l.get? (i + 1) = some ql →
        q.Start = ql.Start := by
  induction l with
  | nil =>
    intro f hs hinv i p q ql hp hq hd hql
    simp at hql
  | cons r rest ih =>
    intro f hs hinv i p q ql hp hq hd hql
    cases i with
    | zero =>
      cases rest with
      | nil => simp at hql
      | cons r2 rest2 =>
        simp only [chainAux, List.get?_cons_zero, List.get?_cons_succ,
          Option.some.injEq] at hp hq hql
        subst hp
        subst hq
        subst hql
        simp only at hd ⊢
        have hne : r2.Date ≠ r.Date := hd
        rw [if_neg hne]
        have hf2 : f r2.Date = none := by
          by_contra hfne
          have h1 : r2.Date ≤ r.Date :=
            hinv r2 (List.mem_cons_of_mem r (List.mem_cons_self r2 rest2))
              r (List.mem_cons_self r (r2 :: rest2)) hfne
          have h2 : r.Date ≤ r2.Date :=
            (List.pairwise_cons.mp hs).1 r2 (List.mem_cons_self r2 rest2)
          exact hne (Nat.le_antisymm h1 h2)
        rw [hf2]
    | succ j =>
      simp only [chainAux, List.get?_cons_succ] at hp hq hql
      have hhead := (List.pairwise_cons.mp hs).1
      have hs2 := (List.pairwise_cons.mp hs).2
      refine ih _ hs2 ?_ j p q ql hp hq hd hql
      intro x hx y hy hne
      by_cases hxr : x.Date = r.Date
      · rw [hxr]
        exact hhead y hy
      · rw [if_neg hxr] at hne
        exact hinv x (List.mem_cons_of_mem r hx) y
          (List.mem_cons_of_mem r hy) hne

/-- The sorted row list has weakly ascending dates, so equal-date rows
are contiguous. -/
lemma sortRows_pairwise_date (l : List PRow) :
    (sortRows l).Pairwise (fun a b => a.Date ≤ b.Date) := by
  have h := List.sorted_insertionSort rowLe l
  exact h.imp (fun hab => by unfold rowLe at hab; omega)

/-- C1: in the chained schedule, relative to the date-and-start sorted
parseable rows, every output row satisfies `End = Start + DurationSec`
and keeps its date and duration; every output row whose predecessor has
the same date starts exactly `GAP` after the predecessor's end,
regardless of its own nominal start; and the first row of each
date-group (the head of the output, or a row whose predecessor has a
different date) starts at its nominal start. -/
theorem compute_schedule_chaining (rows : List RawTask) :
    (compute_schedule rows).length = (sortRows (parseRows rows)).length ∧
    (∀ i p q, (compute_schedule rows).get? i = some p →
      (sortRows (parseRows rows)).get? i = some q →
      p.Date = q.Date ∧ p.DurationSec = q.DurationSec ∧
      p.End = p.Start + p.DurationSec) ∧
    (∀ i p q, (compute_schedule rows).get? i = some p →
      (compute_schedule rows).get? (i + 1) = some q →
      q.Date = p.Date → q.Start = p.End + GAP) ∧
    (∀ p ps q qs, compute_schedule rows = p :: ps →
      sortRows (parseRows rows) = q :: qs → p.Start = q.Start) ∧
    (∀ i p q ql, (compute_schedule rows).get? i = some p →
      (compute_schedule rows).get? (i + 1) = some q →
      q.Date ≠ p.Date → (sortRows (parseRows rows)).get? (i + 1) = some ql →
      q.Start = ql.Start) := by
  refine ⟨?_, ?_, ?_, ?_, ?_⟩
  · exact chainAux_length _ _
  · intro i p q hp hq
    exact chainAux_fields (sortRows (parseRows rows)) _ i p q hp hq
  · intro i p q hp hq hd
    exact chainAux_gap (sortRows (parseRows rows)) _ i p q hp hq hd
  · intro p ps q qs hout hsorted
    unfold compute_schedule at hout
    rw [hsorted] at hout
    simp only [chainAux] at hout
    have := (List.cons.injEq _ _ _ _).mp hout
    rw [← this.1]
  · intro i p q ql hp hq hd hql
    refine chainAux_first (sortRows (parseRows rows)) _
      (sortRows_pairwise_date (parseRows rows)) ?_ i p q ql hp hq hd hql
    intro x hx y hy hne
    exact absurd rfl hne

/-- Demonstration raw tasks for the chaining witness: two parseable tasks
on the same date, both nominally starting at 28800 s (08:00), with
durations 2700 s (45:00) and 1800 s (30:00). -/
def demoTasks : List RawTask :=
  [{ Date := some 1, Start_dt := some 28800, DurationSec := 2700,
     Activity := "A" },
   { Date := some 1, Start_dt := some 28800, DurationSec := 1800,
     Activity := "B" }]

/-- C1 witness: on the demo tasks the second chained activity starts
exactly `GAP` after the first one ends (31560 = 31500 + 60). -/
theorem compute_schedule_chaining_witness :
    ({ Date := 1, Start := 31560, End := 33360, DurationSec := 1800,
       Activity := "B" } : SchedRow).Start =
      ({ Date := 1, Start := 28800, End := 31500, DurationSec := 2700,
         Activity := "A" } : SchedRow).End + GAP :=
  (compute_schedule_chaining demoTasks).2.2.1 0
    { Date := 1, Start := 28800, End := 31500, DurationSec := 2700,
      Activity := "A" }
    { Date := 1, Start := 31560, End := 33360, DurationSec := 1800,
      Activity := "B" }
    (by decide) (by decide) rfl

/-- The dropped rows are exactly those whose `Date` or `Start_dt` parse
is `NaT`: `parseRows` keeps one row per parseable input row. -/
lemma parseRows_length (rows : List RawTask) :
    (parseRows rows).length =
      (rows.filter (fun r => r.Date.isSome && r.Start_dt.isSome)).length := by
  induction rows with
  | nil => rfl
  | cons r rest ih =>
    unfold parseRows at ih ⊢
    rw [List.filterMap_cons, List.filter_cons]
    cases hD : r.Date with
    | none =>
      simp only [hD, Option.isSome_none, Bool.false_and, if_neg]
      · exact ih
    | some d =>
      cases hS : r.Start_dt with
      | none =>
        simp only [hD, hS, Option.isSome_none, Option.isSome_some,
          Bool.true_and, if_neg]
        · exact ih
      | some s =>
        simp only [hD, hS, Option.isSome_some, Bool.true_and, if_pos]
        · simp only [List.length_cons]
          rw [ih]

/-- An unparseable row contributes nothing to `parseRows`, wherever it
sits in the input. -/
lemma parseRows_drop (pre post : List RawTask) (r : RawTask)
    (h : r.Date = none ∨ r.Start_dt = none) :
    parseRows (pre ++ r :: post) = parseRows (pre ++ post) := by
  unfold parseRows
  rw [List.filterMap_append, List.filterMap_append, List.filterMap_cons]
  have hnone : (match r.Date, r.Start_dt with
      | some d, some s =>
          some { Date := d, Start := s, DurationSec := r.DurationSec,
                 Activity := r.Activity }
      | _, _ => (none : Option PRow)) = none := by
    rcases h with h | h
    · rw [h]
    · rw [h]
      cases r.Date <;> rfl
  rw [hnone]

/-- C10: rows whose `Date` does not parse as a date or whose combined
`Date Start` string does not parse as a datetime are silently dropped by
`compute_schedule` — the output has exactly one row per parseable input
row, and removing an unparseable row from the input leaves the schedule
unchanged (no error value is produced; the function is total). -/
theorem compute_schedule_drops_unparseable :
    (∀ rows : List RawTask, (compute_schedule rows).length =
      (rows.filter (fun r => r.Date.isSome && r.Start_dt.isSome)).length) ∧
    (∀ (pre post : List RawTask) (r : RawTask),
      r.Date = none ∨ r.Start_dt = none →
      compute_schedule (pre ++ r :: post) = compute_schedule (pre ++ post)) := by
  constructor
  · intro rows
    unfold compute_schedule
    rw [chainAux_length]
    unfold sortRows
    rw [(List.perm_insertionSort rowLe (parseRows rows)).length_eq]
    exact parseRows_length rows
  · intro pre post r h
    unfold compute_schedule
    rw [parseRows_drop pre post r h]

/-- C10 witness: a single row with an unparseable `Date` yields the same
(empty) schedule as no row at all, and the length equality holds on the
demo tasks. -/
theorem compute_schedule_drops_unparseable_witness :
    compute_schedule
        [{ Date := none, Start_dt := some 0, DurationSec := 5,
           Activity := "X" }] = compute_schedule [] ∧
    (compute_schedule demoTasks).length =
      (demoTasks.filter (fun r => r.Date.isSome && r.Start_dt.isSome)).length :=
  ⟨compute_schedule_drops_unparseable.2 [] []
      { Date := none, Start_dt := some 0, DurationSec := 5, Activity := "X" }
      (Or.inl rfl),
   compute_schedule_drops_unparseable.1 demoTasks⟩
